import Mathlib

/-!
Shallow embedding of the VaC_Rust language front-end: the lexer of
src/lexer.rs and the recursive-descent parser of src/parser.rs, together
with theorems checking the specification's claims about them.

Modelling conventions:
* source text is a `List Char` (the Rust cursor is a byte index that always
  advances by one whole UTF-8 character, so the remaining input is a char
  suffix);
* a Rust `panic!` is an error value (`Except.error` in the lexer,
  `PResult.fatal` in the parser);
* the parser's loops and recursion can genuinely diverge, so every parser
  rule takes a fuel argument and returns `PResult.diverge` when the fuel
  runs out; real divergence is "diverge for every fuel".
-/

namespace VaC

/-- Token kinds, from `TokenType` in src/lexer.rs. -/
inductive TokenType where
  | Keyword
  | Identifier
  | Number
  | Operator
  | Delimiter
  | EOF
deriving DecidableEq, Repr

/-- A lexical token, from `Token` in src/lexer.rs. -/
structure Token where
  token_type : TokenType
  value : String
deriving DecidableEq, Repr

/-- The whitespace characters of the first match arm of `Lexer::tokenize`. -/
def wsChar (c : Char) : Bool :=
  c == ' ' || c == '\t' || c == '\n'

/-- The operator characters of `Lexer::tokenize` (match arm on line 48). -/
def isOperatorChar (c : Char) : Bool :=
  c == '+' || c == '-' || c == '*' || c == '/'

/-- The delimiter characters of `Lexer::tokenize` (match arm on line 49). -/
def isDelimiterChar (c : Char) : Bool :=
  c == '(' || c == ')' || c == '{' || c == '}' || c == ',' || c == ';'

/-- Model of Rust's `char::is_alphanumeric` (Unicode Alphabetic or Number),
used by `Lexer::tokenize_identifier`. The table is exact on the Basic Latin
and Latin-1 Supplement blocks (U+0000 to U+00FF), which cover every character
this development evaluates on; characters above U+00FF, whose classification
would need the full Unicode tables, are treated as not alphanumeric, and no
theorem below depends on that range. -/
def rustIsAlphanumeric (c : Char) : Bool :=
  c.isDigit || c.isAlpha ||
  c == 'ª' || c == 'µ' || c == 'º' || c == '²' || c == '³' || c == '¹' ||
  c == '¼' || c == '½' || c == '¾' ||
  (0xC0 ≤ c.toNat && c.toNat ≤ 0xFF && c.toNat != 0xD7 && c.toNat != 0xF7)

/-- The scan loop of `Lexer::tokenize` (src/lexer.rs lines 38 to 55), one
recursive call per iteration of the Rust `while` loop. The maximal runs
consumed by `tokenize_number` and `tokenize_identifier` are `takeWhile`
of the corresponding character class starting at the current character.
`fuel` only bounds the number of iterations; `tokenize` below supplies
enough fuel for any input, so the `fuel = 0` branch is unreachable there
(lemma `tokenizeLoop_congr`). -/
def tokenizeLoop : Nat → List Char → Except String (List Token)
  | 0, _ => .error "out of fuel"
  | _ + 1, [] => .ok [⟨.EOF, ""⟩]
  | fuel + 1, c :: cs =>
    if wsChar c then
      tokenizeLoop fuel cs
    else if c.isDigit then
      (tokenizeLoop fuel ((c :: cs).dropWhile Char.isDigit)).map
        (fun ts => ⟨.Number, String.mk ((c :: cs).takeWhile Char.isDigit)⟩ :: ts)
    else if c.isAlpha then
      (tokenizeLoop fuel ((c :: cs).dropWhile rustIsAlphanumeric)).map
        (fun ts =>
          (if String.mk ((c :: cs).takeWhile rustIsAlphanumeric) == "function" ||
              String.mk ((c :: cs).takeWhile rustIsAlphanumeric) == "if" then
            (⟨.Keyword, String.mk ((c :: cs).takeWhile rustIsAlphanumeric)⟩ : Token)
          else
            ⟨.Identifier, String.mk ((c :: cs).takeWhile rustIsAlphanumeric)⟩) :: ts)
    else if isOperatorChar c then
      (tokenizeLoop fuel cs).map (fun ts => ⟨.Operator, String.mk [c]⟩ :: ts)
    else if isDelimiterChar c then
      (tokenizeLoop fuel cs).map (fun ts => ⟨.Delimiter, String.mk [c]⟩ :: ts)
    else
      .error ("Unexpected character: " ++ String.mk [c])

/-- Function `Lexer::tokenize` over the whole input: the loop runs at most one
iteration per input character, so `length + 1` fuel always completes. -/
def tokenize (s : List Char) : Except String (List Token) :=
  tokenizeLoop (s.length + 1) s

/-- Shape invariant of every token the lexer emits before the final EOF
token: the token's text is the exact character run its producing rule
consumed, and its kind matches that rule. -/
def GoodToken (t : Token) : Prop :=
  (t.token_type = .Number ∧ ∃ c cs, t.value.data = c :: cs ∧
    ∀ d ∈ c :: cs, d.isDigit = true) ∨
  ((t.token_type = .Keyword ∨ t.token_type = .Identifier) ∧ ∃ c cs,
    t.value.data = c :: cs ∧ c.isAlpha = true ∧ (∀ d ∈ cs, rustIsAlphanumeric d = true) ∧
    (t.token_type = .Keyword ↔ (t.value = "function" ∨ t.value = "if"))) ∨
  (t.token_type = .Operator ∧ ∃ c, isOperatorChar c = true ∧ t.value = String.mk [c]) ∨
  (t.token_type = .Delimiter ∧ ∃ c, isDelimiterChar c = true ∧ t.value = String.mk [c])

/-- A character no classification rule of the lexer's match starts at. -/
def badChar (c : Char) : Bool :=
  !(wsChar c || c.isDigit || c.isAlpha || isOperatorChar c || isDelimiterChar c)

/-- The inputs on which the lexer's cursor only ever stops at characters
matched by some classification rule: a decomposition into whitespace,
digit-led digit runs, letter-led alphanumeric runs, operators and
delimiters. `tokenize` succeeds on exactly these inputs
(`tokenize_isOk_iff_lexable`), which formalizes "the cursor never reaches
an unclassifiable character". -/
inductive Lexable : List Char → Prop where
  | nil : Lexable []
  | ws {c : Char} {rest : List Char} :
      wsChar c = true → Lexable rest → Lexable (c :: rest)
  | num {c : Char} {run rest : List Char} : c.isDigit = true →
      (∀ d ∈ run, d.isDigit = true) → Lexable rest → Lexable (c :: (run ++ rest))
  | alpha {c : Char} {run rest : List Char} : c.isAlpha = true →
      (∀ d ∈ run, rustIsAlphanumeric d = true) → Lexable rest → Lexable (c :: (run ++ rest))
  | op {c : Char} {rest : List Char} :
      isOperatorChar c = true → Lexable rest → Lexable (c :: rest)
  | delim {c : Char} {rest : List Char} :
      isDelimiterChar c = true → Lexable rest → Lexable (c :: rest)

/-- Expression AST, from `Expr` in src/parser.rs; the `i32` payload of
`NumberLiteral` is an `Int` kept in range by `parseI32`. -/
inductive Expr where
  | NumberLiteral : Int → Expr
  | Variable : String → Expr
  | Binary : Expr → String → Expr → Expr
deriving Repr

/-- Statement AST, from `Stmt` in src/parser.rs. -/
inductive Stmt where
  | Assignment : String → Expr → Stmt
  | FunctionDeclaration : String → List String → List Stmt → Stmt
  | If : Expr → List Stmt → Stmt
deriving Repr

/-- The parser's mutable state, from `Parser` in src/parser.rs: the token
sequence is fixed after construction and `position` is the forward cursor. -/
structure ParserState where
  tokens : List Token
  position : Nat
deriving Repr

/-- Outcome of running a parser rule: a value plus the updated state, a
fatal error (a Rust `panic!`), or fuel exhaustion (`diverge`), which
models non-termination when it happens at every fuel. -/
inductive PResult (α : Type) where
  | ok : α → ParserState → PResult α
  | fatal : String → PResult α
  | diverge : PResult α
deriving Repr

/-- Map over the value of an ok outcome (used to accumulate list results in
the order the Rust loops push them). -/
def PResult.map {α β : Type} (f : α → β) : PResult α → PResult β
  | .ok a st => .ok (f a) st
  | .fatal e => .fatal e
  | .diverge => .diverge

/-- Model of Rust's `str::parse::<i32>` as used by `parse_term`: an optional
sign followed by one or more ASCII digits, with the result required to fit
in the signed 32-bit range; anything else (including overflow) is a parse
error, i.e. `none`. -/
def parseI32 (s : String) : Option Int :=
  let core : List Char → Option Nat := fun ds =>
    if ds ≠ [] ∧ ∀ d ∈ ds, d.isDigit = true then
      some (ds.foldl (fun a d => a * 10 + (d.toNat - 48)) 0)
    else
      none
  match s.data with
  | '+' :: ds => (core ds).bind fun n => if n ≤ 2147483647 then some (n : Int) else none
  | '-' :: ds => (core ds).bind fun n => if n ≤ 2147483648 then some (-(n : Int)) else none
  | ds => (core ds).bind fun n => if n ≤ 2147483647 then some (n : Int) else none

/-- Method `Parser::current_token` (src/parser.rs lines 126 to 128):
`&self.tokens[self.position]`, a Rust index that panics when the cursor is
out of bounds. It never changes the state. -/
def current_token (st : ParserState) : Except String Token :=
  match st.tokens.get? st.position with
  | some t => .ok t
  | none => .error "index out of bounds"

/-- Method `Parser::consume_token` (src/parser.rs lines 130 to 134): returns the
current token and increments the cursor by exactly one. -/
def consume_token (st : ParserState) : Except String (Token × ParserState) :=
  (current_token st).map fun t => (t, ⟨st.tokens, st.position + 1⟩)

mutual

/-- Method `Parser::parse_statement` (src/parser.rs lines 42 to 49): dispatch on
the current token; any token that is not the keyword `function`, the
keyword `if` or an identifier panics. -/
def parse_statement : Nat → ParserState → PResult Stmt
  | 0, _ => .diverge
  | n + 1, st =>
    match current_token st with
    | .error e => .fatal e
    | .ok t =>
      if t.token_type = .Keyword ∧ t.value = "function" then
        parse_function_declaration n st
      else if t.token_type = .Keyword ∧ t.value = "if" then
        parse_if_statement n st
      else if t.token_type = .Identifier then
        parse_assignment n st
      else
        .fatal ("Unexpected token: " ++ t.value)

/-- Method `Parser::parse_function_declaration` (src/parser.rs lines 51 to 61):
every "advance past X" step is an unconditional `consume_token`. -/
def parse_function_declaration : Nat → ParserState → PResult Stmt
  | 0, _ => .diverge
  | n + 1, st =>
    match consume_token st with
    | .error e => .fatal e
    | .ok (_, st1) =>
      match consume_token st1 with
      | .error e => .fatal e
      | .ok (nameTok, st2) =>
        match consume_token st2 with
        | .error e => .fatal e
        | .ok (_, st3) =>
          match parse_parameter_list n st3 with
          | .fatal e => .fatal e
          | .diverge => .diverge
          | .ok params st4 =>
            match consume_token st4 with
            | .error e => .fatal e
            | .ok (_, st5) =>
              match consume_token st5 with
              | .error e => .fatal e
              | .ok (_, st6) =>
                match parse_statement_list n st6 with
                | .fatal e => .fatal e
                | .diverge => .diverge
                | .ok body st7 =>
                  match consume_token st7 with
                  | .error e => .fatal e
                  | .ok (_, st8) =>
                    .ok (.FunctionDeclaration nameTok.value params body) st8

/-- Method `Parser::parse_parameter_list` (src/parser.rs lines 63 to 74): loop
while the current token is not the delimiter `)`; consume an identifier
into the list, consume a `,`, and silently skip (without advancing!) any
other token — the latter makes the loop spin forever, which is `diverge`
at every fuel. -/
def parse_parameter_list : Nat → ParserState → PResult (List String)
  | 0, _ => .diverge
  | n + 1, st =>
    match current_token st with
    | .error e => .fatal e
    | .ok t =>
      if t.token_type = .Delimiter ∧ t.value = ")" then
        .ok [] st
      else if t.token_type = .Identifier then
        match consume_token st with
        | .error e => .fatal e
        | .ok (idTok, st1) =>
          match current_token st1 with
          | .error e => .fatal e
          | .ok t2 =>
            if t2.token_type = .Delimiter ∧ t2.value = "," then
              match consume_token st1 with
              | .error e => .fatal e
              | .ok (_, st2) => PResult.map (idTok.value :: ·) (parse_parameter_list n st2)
            else
              PResult.map (idTok.value :: ·) (parse_parameter_list n st1)
      else
        if t.token_type = .Delimiter ∧ t.value = "," then
          match consume_token st with
          | .error e => .fatal e
          | .ok (_, st1) => parse_parameter_list n st1
        else
          parse_parameter_list n st

/-- Modelled from the spec: `parse_statement_list` is called by
`parse_function_declaration` and `parse_if_statement` but its definition is
absent from src/parser.rs; section 4.2 of the spec describes it as
repeating statement parsing until the current token is the delimiter
`}` (exclusive). -/
def parse_statement_list : Nat → ParserState → PResult (List Stmt)
  | 0, _ => .diverge
  | n + 1, st =>
    match current_token st with
    | .error e => .fatal e
    | .ok t =>
      if t.token_type = .Delimiter ∧ t.value = "\x7d" then
        .ok [] st
      else
        match parse_statement n st with
        | .fatal e => .fatal e
        | .diverge => .diverge
        | .ok s st1 => PResult.map (s :: ·) (parse_statement_list n st1)

/-- Method `Parser::parse_if_statement` (src/parser.rs lines 76 to 85). -/
def parse_if_statement : Nat → ParserState → PResult Stmt
  | 0, _ => .diverge
  | n + 1, st =>
    match consume_token st with
    | .error e => .fatal e
    | .ok (_, st1) =>
      match consume_token st1 with
      | .error e => .fatal e
      | .ok (_, st2) =>
        match parse_expression n st2 with
        | .fatal e => .fatal e
        | .diverge => .diverge
        | .ok cond st3 =>
          match consume_token st3 with
          | .error e => .fatal e
          | .ok (_, st4) =>
            match consume_token st4 with
            | .error e => .fatal e
            | .ok (_, st5) =>
              match parse_statement_list n st5 with
              | .fatal e => .fatal e
              | .diverge => .diverge
              | .ok body st6 =>
                match consume_token st6 with
                | .error e => .fatal e
                | .ok (_, st7) => .ok (.If cond body) st7

/-- Method `Parser::parse_assignment` (src/parser.rs lines 87 to 93): the `=`
step is an unconditional `consume_token` — it consumes whatever token is
current without checking its text. -/
def parse_assignment : Nat → ParserState → PResult Stmt
  | 0, _ => .diverge
  | n + 1, st =>
    match consume_token st with
    | .error e => .fatal e
    | .ok (varTok, st1) =>
      match consume_token st1 with
      | .error e => .fatal e
      | .ok (_, st2) =>
        match parse_expression n st2 with
        | .fatal e => .fatal e
        | .diverge => .diverge
        | .ok value st3 =>
          match consume_token st3 with
          | .error e => .fatal e
          | .ok (_, st4) => .ok (.Assignment varTok.value value) st4

/-- Method `Parser::parse_expression` (src/parser.rs lines 95 to 104): one term,
then, if the current token is an Operator, consume it and recurse on the
whole expression for the right-hand side — right associative, single
precedence level. -/
def parse_expression : Nat → ParserState → PResult Expr
  | 0, _ => .diverge
  | n + 1, st =>
    match parse_term n st with
    | .fatal e => .fatal e
    | .diverge => .diverge
    | .ok left st1 =>
      match current_token st1 with
      | .error e => .fatal e
      | .ok t =>
        if t.token_type = .Operator then
          match consume_token st1 with
          | .error e => .fatal e
          | .ok (opTok, st2) =>
            match parse_expression n st2 with
            | .fatal e => .fatal e
            | .diverge => .diverge
            | .ok right st3 => .ok (.Binary left opTok.value right) st3
        else
          .ok left st1

/-- Method `Parser::parse_term` (src/parser.rs lines 106 to 124): number literal
(whose text must parse as an `i32`, else `unwrap` panics), variable, or
parenthesized expression with an unconditional consume of the closing
`)`. -/
def parse_term : Nat → ParserState → PResult Expr
  | 0, _ => .diverge
  | n + 1, st =>
    match current_token st with
    | .error e => .fatal e
    | .ok t =>
      if t.token_type = .Number then
        match consume_token st with
        | .error e => .fatal e
        | .ok (numTok, st1) =>
          match parseI32 numTok.value with
          | some v => .ok (.NumberLiteral v) st1
          | none => .fatal "called Result::unwrap() on an Err value"
      else if t.token_type = .Identifier then
        match consume_token st with
        | .error e => .fatal e
        | .ok (idTok, st1) => .ok (.Variable idTok.value) st1
      else if t.token_type = .Delimiter ∧ t.value = "(" then
        match consume_token st with
        | .error e => .fatal e
        | .ok (_, st1) =>
          match parse_expression n st1 with
          | .fatal e => .fatal e
          | .diverge => .diverge
          | .ok e st2 =>
            match consume_token st2 with
            | .error e => .fatal e
            | .ok (_, st3) => .ok e st3
      else
        .fatal ("Unexpected token: " ++ t.value)

end

/-- The `while` loop of `Parser::parse` (src/parser.rs lines 34 to 40):
parse statements until the current token is EOF. -/
def parse_loop : Nat → ParserState → PResult (List Stmt)
  | 0, _ => .diverge
  | n + 1, st =>
    match current_token st with
    | .error e => .fatal e
    | .ok t =>
      if t.token_type = .EOF then
        .ok [] st
      else
        match parse_statement n st with
        | .fatal e => .fatal e
        | .diverge => .diverge
        | .ok s st1 => PResult.map (s :: ·) (parse_loop n st1)

/-- Method `Parser::parse` on a token sequence, starting from cursor 0 (the state
`Parser::new` builds from `Lexer::tokenize`). -/
def parse (fuel : Nat) (tokens : List Token) : PResult (List Stmt) :=
  parse_loop fuel ⟨tokens, 0⟩

/-- Cursor discipline between a rule's entry and exit states: same token
sequence, non-decreasing position, position within bounds. -/
def cursorOk (st st2 : ParserState) : Prop :=
  st2.tokens = st.tokens ∧ st.position ≤ st2.position ∧ st2.position ≤ st.tokens.length

/-- A token that `parse_term` turns into a leaf expression in one step: an
Identifier (giving a `Variable`), or a Number whose text parses as an
`i32` (giving a `NumberLiteral`). -/
def AtomTerm (t : Token) (e : Expr) : Prop :=
  (t.token_type = .Identifier ∧ e = .Variable t.value) ∨
  (t.token_type = .Number ∧ ∃ v, parseI32 t.value = some v ∧ e = .NumberLiteral v)

/-- The token sequence the lexer produces for `function f(5){}`. -/
def badTokens : List Token :=
  [⟨.Keyword, "function"⟩, ⟨.Identifier, "f"⟩, ⟨.Delimiter, "("⟩, ⟨.Number, "5"⟩,
   ⟨.Delimiter, ")"⟩, ⟨.Delimiter, "\x7b"⟩, ⟨.Delimiter, "\x7d"⟩, ⟨.EOF, ""⟩]

/-- The example program of src/main.rs, exactly as the driver writes it. -/
def exampleSource : String :=
  "\n        function startEngine() \x7b\n            speed = 100;\n            if (speed > 60) \x7b\n                applyBrakes();\n            \x7d\n        \x7d\n    "

def srcXYZ : String := "x y z ;"

def xyzTokens : List Token :=
  [⟨.Identifier, "x"⟩, ⟨.Identifier, "y"⟩, ⟨.Identifier, "z"⟩, ⟨.Delimiter, ";"⟩,
   ⟨.EOF, ""⟩]

def srcFn5 : String := "function f(5)\x7b\x7d"

def srcDollar : String := "a$b"

def srcFunctionWord : String := "function"

def srcFunctionX : String := "functionX"

def srcAE : String := "aé"

def srcEAcute : String := "é"

theorem length_dropWhile_le (p : Char → Bool) (l : List Char) :
    (l.dropWhile p).length ≤ l.length :=
  (List.dropWhile_sublist p).length_le

/-- The fuel argument of `tokenizeLoop` is irrelevant once it exceeds the
input length: every iteration consumes at least one character. -/
theorem tokenizeLoop_congr :
    ∀ f : Nat, ∀ s : List Char, s.length < f → tokenizeLoop f s = tokenize s := by
  intro f
  induction f using Nat.strong_induction_on with
  | _ f ih =>
    intro s hs
    match f, s with
    | f + 1, [] => rfl
    | f + 1, c :: cs =>
      have hcs : cs.length < f := by simpa using hs
      have step : ∀ t : List Char, t.length ≤ cs.length →
          tokenizeLoop f t = tokenizeLoop (cs.length + 1) t := by
        intro t ht
        rw [ih f (Nat.lt_succ_self f) t (Nat.lt_of_le_of_lt ht hcs),
          ih (cs.length + 1) (by omega) t (by omega)]
      show tokenizeLoop (f + 1) (c :: cs) = tokenizeLoop (cs.length + 1 + 1) (c :: cs)
      by_cases hws : wsChar c
      · simp only [tokenizeLoop, hws, if_true]
        exact step cs le_rfl
      · by_cases hd : c.isDigit
        · have hdrop : (c :: cs).dropWhile Char.isDigit = cs.dropWhile Char.isDigit :=
            List.dropWhile_cons_of_pos hd
          simp [tokenizeLoop, hws, hd, hdrop]
          rw [step (cs.dropWhile Char.isDigit) (length_dropWhile_le _ _)]
        · by_cases ha : c.isAlpha
          · have hc : rustIsAlphanumeric c := by simp [rustIsAlphanumeric, ha]
            have hdrop : (c :: cs).dropWhile rustIsAlphanumeric =
                cs.dropWhile rustIsAlphanumeric := List.dropWhile_cons_of_pos hc
            simp [tokenizeLoop, hws, hd, ha, hdrop]
            rw [step (cs.dropWhile rustIsAlphanumeric) (length_dropWhile_le _ _)]
          · by_cases hop : isOperatorChar c
            · simp [tokenizeLoop, hws, hd, ha, hop]
              rw [step cs le_rfl]
            · by_cases hde : isDelimiterChar c
              · simp [tokenizeLoop, hws, hd, ha, hop, hde]
                rw [step cs le_rfl]
              · simp [tokenizeLoop, hws, hd, ha, hop, hde]

theorem not_ws_of_digit {c : Char} (h : c.isDigit = true) : wsChar c = false := by
  cases hw : wsChar c with
  | false => rfl
  | true =>
    simp only [wsChar, Bool.or_eq_true, beq_iff_eq] at hw
    rcases hw with (rfl | rfl) | rfl <;> exact absurd h (by decide)

theorem not_digit_of_alpha {c : Char} (h : c.isAlpha = true) : c.isDigit = false := by
  cases hd : c.isDigit with
  | false => rfl
  | true =>
    simp only [Char.isDigit, Bool.and_eq_true, decide_eq_true_eq, ge_iff_le] at hd
    simp only [Char.isAlpha, Char.isUpper, Char.isLower, Bool.or_eq_true,
      Bool.and_eq_true, decide_eq_true_eq, ge_iff_le] at h
    rcases h with ⟨h1, _⟩ | ⟨h1, _⟩ <;> exact absurd (UInt32.le_trans h1 hd.2) (by decide)

theorem not_ws_of_alpha {c : Char} (h : c.isAlpha = true) : wsChar c = false := by
  cases hw : wsChar c with
  | false => rfl
  | true =>
    simp only [wsChar, Bool.or_eq_true, beq_iff_eq] at hw
    rcases hw with (rfl | rfl) | rfl <;> exact absurd h (by decide)

theorem op_chars {c : Char} (h : isOperatorChar c = true) :
    c = '+' ∨ c = '-' ∨ c = '*' ∨ c = '/' := by
  simp only [isOperatorChar, Bool.or_eq_true, beq_iff_eq] at h
  tauto

theorem delim_chars {c : Char} (h : isDelimiterChar c = true) :
    c = '(' ∨ c = ')' ∨ c = '{' ∨ c = '}' ∨ c = ',' ∨ c = ';' := by
  simp only [isDelimiterChar, Bool.or_eq_true, beq_iff_eq] at h
  tauto

theorem alnum_of_digit {c : Char} (h : c.isDigit = true) : rustIsAlphanumeric c = true := by
  simp [rustIsAlphanumeric, h]

theorem alnum_of_alpha {c : Char} (h : c.isAlpha = true) : rustIsAlphanumeric c = true := by
  simp [rustIsAlphanumeric, h]

theorem tokenize_nil : tokenize [] = .ok [⟨.EOF, ""⟩] := rfl

theorem tokenize_ws {c : Char} (cs : List Char) (h : wsChar c = true) :
    tokenize (c :: cs) = tokenize cs := by
  show tokenizeLoop (cs.length + 1 + 1) (c :: cs) = tokenize cs
  simp only [tokenizeLoop, h, if_true]
  exact tokenizeLoop_congr _ _ (by omega)

theorem tokenize_digit {c : Char} (cs : List Char) (h : c.isDigit = true) :
    tokenize (c :: cs) =
      (tokenize (cs.dropWhile Char.isDigit)).map
        (fun ts => ⟨.Number, String.mk (c :: cs.takeWhile Char.isDigit)⟩ :: ts) := by
  have hws := not_ws_of_digit h
  show tokenizeLoop (cs.length + 1 + 1) (c :: cs) = _
  simp [tokenizeLoop, h, hws, List.dropWhile_cons_of_pos h, List.takeWhile_cons_of_pos h]
  rw [tokenizeLoop_congr _ _ (Nat.lt_succ_of_le (length_dropWhile_le _ _))]

theorem tokenize_alpha {c : Char} (cs : List Char) (h : c.isAlpha = true) :
    tokenize (c :: cs) =
      (tokenize (cs.dropWhile rustIsAlphanumeric)).map
        (fun ts =>
          (if String.mk (c :: cs.takeWhile rustIsAlphanumeric) == "function" ||
              String.mk (c :: cs.takeWhile rustIsAlphanumeric) == "if" then
            (⟨.Keyword, String.mk (c :: cs.takeWhile rustIsAlphanumeric)⟩ : Token)
          else
            ⟨.Identifier, String.mk (c :: cs.takeWhile rustIsAlphanumeric)⟩) :: ts) := by
  have hws := not_ws_of_alpha h
  have hd := not_digit_of_alpha h
  have hal := alnum_of_alpha h
  show tokenizeLoop (cs.length + 1 + 1) (c :: cs) = _
  simp [tokenizeLoop, h, hws, hd, List.dropWhile_cons_of_pos hal,
    List.takeWhile_cons_of_pos hal]
  rw [tokenizeLoop_congr _ _ (Nat.lt_succ_of_le (length_dropWhile_le _ _))]

theorem tokenize_op {c : Char} (cs : List Char) (h : isOperatorChar c = true) :
    tokenize (c :: cs) = (tokenize cs).map (fun ts => ⟨.Operator, String.mk [c]⟩ :: ts) := by
  have extra : wsChar c = false ∧ c.isDigit = false ∧ c.isAlpha = false := by
    rcases op_chars h with rfl | rfl | rfl | rfl <;> refine ⟨by decide, by decide, by decide⟩
  show tokenizeLoop (cs.length + 1 + 1) (c :: cs) = _
  simp [tokenizeLoop, h, extra.1, extra.2.1, extra.2.2]
  rw [tokenizeLoop_congr _ _ (by omega)]

theorem tokenize_delim {c : Char} (cs : List Char) (h : isDelimiterChar c = true) :
    tokenize (c :: cs) = (tokenize cs).map (fun ts => ⟨.Delimiter, String.mk [c]⟩ :: ts) := by
  have extra : wsChar c = false ∧ c.isDigit = false ∧ c.isAlpha = false ∧
      isOperatorChar c = false := by
    rcases delim_chars h with rfl | rfl | rfl | rfl | rfl | rfl <;>
      refine ⟨by decide, by decide, by decide, by decide⟩
  show tokenizeLoop (cs.length + 1 + 1) (c :: cs) = _
  simp [tokenizeLoop, h, extra.1, extra.2.1, extra.2.2.1, extra.2.2.2]
  rw [tokenizeLoop_congr _ _ (by omega)]

theorem tokenize_err {c : Char} (cs : List Char) (h1 : wsChar c = false)
    (h2 : c.isDigit = false) (h3 : c.isAlpha = false) (h4 : isOperatorChar c = false)
    (h5 : isDelimiterChar c = false) :
    tokenize (c :: cs) = .error ("Unexpected character: " ++ String.mk [c]) := by
  show tokenizeLoop (cs.length + 1 + 1) (c :: cs) = _
  simp [tokenizeLoop, h1, h2, h3, h4, h5]

theorem except_map_ok {α β : Type} (f : α → β) (e : Except String α) (b : β)
    (h : e.map f = .ok b) : ∃ a, e = .ok a ∧ b = f a := by
  cases e with
  | error m => simp [Except.map] at h
  | ok a => exact ⟨a, rfl, by simpa [Except.map] using h.symm⟩

theorem except_map_err {α β : Type} (f : α → β) (e : Except String α) (m : String)
    (h : e.map f = .error m) : e = .error m := by
  cases e with
  | error m2 => simpa [Except.map] using h
  | ok a => simp [Except.map] at h

theorem except_isOk_map {α β : Type} (f : α → β) (e : Except String α) :
    (e.map f).isOk = e.isOk := by
  cases e <;> rfl

theorem tokenize_ok_structure :
    ∀ n : Nat, ∀ s : List Char, s.length ≤ n → ∀ ts, tokenize s = .ok ts →
    ∃ body, ts = body ++ [⟨.EOF, ""⟩] ∧ ∀ t ∈ body, GoodToken t := by
  intro n
  induction n with
  | zero =>
    intro s hs ts h
    have : s = [] := List.length_eq_zero.mp (Nat.le_zero.mp hs)
    subst this
    rw [tokenize_nil] at h
    exact ⟨[], by simpa using h.symm, by simp⟩
  | succ n ih =>
    intro s hs ts h
    match s with
    | [] =>
      rw [tokenize_nil] at h
      exact ⟨[], by simpa using h.symm, by simp⟩
    | c :: cs =>
      have hlen : cs.length ≤ n := by simpa using hs
      by_cases hws : wsChar c
      · rw [tokenize_ws cs hws] at h
        exact ih cs hlen ts h
      · by_cases hdig : c.isDigit
        · rw [tokenize_digit cs hdig] at h
          obtain ⟨ts0, hts0, rfl⟩ := except_map_ok _ _ _ h
          obtain ⟨body, rfl, hbody⟩ :=
            ih _ (le_trans (length_dropWhile_le _ _) hlen) ts0 hts0
          refine ⟨_ :: body, rfl, ?_⟩
          intro t ht
          rcases List.mem_cons.mp ht with rfl | ht
          · refine Or.inl ⟨rfl, c, cs.takeWhile Char.isDigit, rfl, ?_⟩
            intro d hd
            rcases List.mem_cons.mp hd with rfl | hd
            · exact hdig
            · exact List.mem_takeWhile_imp hd
          · exact hbody t ht
        · by_cases hal : c.isAlpha
          · rw [tokenize_alpha cs hal] at h
            obtain ⟨ts0, hts0, rfl⟩ := except_map_ok _ _ _ h
            obtain ⟨body, rfl, hbody⟩ :=
              ih _ (le_trans (length_dropWhile_le _ _) hlen) ts0 hts0
            refine ⟨_ :: body, rfl, ?_⟩
            intro t ht
            rcases List.mem_cons.mp ht with rfl | ht
            · refine Or.inr (Or.inl ?_)
              by_cases hkw : (String.mk (c :: cs.takeWhile rustIsAlphanumeric) == "function" ||
                  String.mk (c :: cs.takeWhile rustIsAlphanumeric) == "if") = true
              · rw [if_pos hkw]
                refine ⟨by simp, c, cs.takeWhile rustIsAlphanumeric, rfl, hal,
                  fun d hd => List.mem_takeWhile_imp hd, ?_⟩
                constructor
                · intro _
                  simpa [Bool.or_eq_true, beq_iff_eq] using hkw
                · intro _
                  rfl
              · rw [if_neg hkw]
                refine ⟨by simp, c, cs.takeWhile rustIsAlphanumeric, rfl, hal,
                  fun d hd => List.mem_takeWhile_imp hd, ?_⟩
                constructor
                · intro hk
                  exact absurd hk (by simp)
                · intro hv
                  exact absurd (by simpa [Bool.or_eq_true, beq_iff_eq] using hv) hkw
            · exact hbody t ht
          · by_cases hop : isOperatorChar c
            · rw [tokenize_op cs hop] at h
              obtain ⟨ts0, hts0, rfl⟩ := except_map_ok _ _ _ h
              obtain ⟨body, rfl, hbody⟩ := ih cs hlen ts0 hts0
              refine ⟨_ :: body, rfl, ?_⟩
              intro t ht
              rcases List.mem_cons.mp ht with rfl | ht
              · exact Or.inr (Or.inr (Or.inl ⟨rfl, c, hop, rfl⟩))
              · exact hbody t ht
            · by_cases hde : isDelimiterChar c
              · rw [tokenize_delim cs hde] at h
                obtain ⟨ts0, hts0, rfl⟩ := except_map_ok _ _ _ h
                obtain ⟨body, rfl, hbody⟩ := ih cs hlen ts0 hts0
                refine ⟨_ :: body, rfl, ?_⟩
                intro t ht
                rcases List.mem_cons.mp ht with rfl | ht
                · exact Or.inr (Or.inr (Or.inr ⟨rfl, c, hde, rfl⟩))
                · exact hbody t ht
              · rw [tokenize_err cs (by simpa using hws) (by simpa using hdig)
                  (by simpa using hal) (by simpa using hop) (by simpa using hde)] at h
                exact absurd h (by simp)

theorem tokenize_err_form :
    ∀ n : Nat, ∀ s : List Char, s.length ≤ n → ∀ m, tokenize s = .error m →
    ∃ c, c ∈ s ∧ badChar c = true ∧ m = "Unexpected character: " ++ String.mk [c] := by
  intro n
  induction n with
  | zero =>
    intro s hs m h
    have : s = [] := List.length_eq_zero.mp (Nat.le_zero.mp hs)
    subst this
    rw [tokenize_nil] at h
    exact absurd h (by simp)
  | succ n ih =>
    intro s hs m h
    match s with
    | [] =>
      rw [tokenize_nil] at h
      exact absurd h (by simp)
    | c :: cs =>
      have hlen : cs.length ≤ n := by simpa using hs
      by_cases hws : wsChar c
      · rw [tokenize_ws cs hws] at h
        obtain ⟨c0, hmem, hbad, hm⟩ := ih cs hlen m h
        exact ⟨c0, List.mem_cons_of_mem c hmem, hbad, hm⟩
      · by_cases hdig : c.isDigit
        · rw [tokenize_digit cs hdig] at h
          obtain ⟨c0, hmem, hbad, hm⟩ :=
            ih _ (le_trans (length_dropWhile_le _ _) hlen) m (except_map_err _ _ _ h)
          exact ⟨c0, List.mem_cons_of_mem c ((List.dropWhile_sublist _).subset hmem),
            hbad, hm⟩
        · by_cases hal : c.isAlpha
          · rw [tokenize_alpha cs hal] at h
            obtain ⟨c0, hmem, hbad, hm⟩ :=
              ih _ (le_trans (length_dropWhile_le _ _) hlen) m (except_map_err _ _ _ h)
            exact ⟨c0, List.mem_cons_of_mem c ((List.dropWhile_sublist _).subset hmem),
              hbad, hm⟩
          · by_cases hop : isOperatorChar c
            · rw [tokenize_op cs hop] at h
              obtain ⟨c0, hmem, hbad, hm⟩ := ih cs hlen m (except_map_err _ _ _ h)
              exact ⟨c0, List.mem_cons_of_mem c hmem, hbad, hm⟩
            · by_cases hde : isDelimiterChar c
              · rw [tokenize_delim cs hde] at h
                obtain ⟨c0, hmem, hbad, hm⟩ := ih cs hlen m (except_map_err _ _ _ h)
                exact ⟨c0, List.mem_cons_of_mem c hmem, hbad, hm⟩
              · rw [tokenize_err cs (by simpa using hws) (by simpa using hdig)
                  (by simpa using hal) (by simpa using hop) (by simpa using hde)] at h
                refine ⟨c, List.mem_cons_self c cs, ?_, by simpa using h.symm⟩
                simp [badChar, hws, hdig, hal, hop, hde]

theorem tokenize_badchar :
    ∀ n : Nat, ∀ s : List Char, s.length ≤ n →
    ∀ c0, c0 ∈ s → badChar c0 = true → rustIsAlphanumeric c0 = false →
    (tokenize s).isOk = false := by
  intro n
  induction n with
  | zero =>
    intro s hs c0 hmem _ _
    have : s = [] := List.length_eq_zero.mp (Nat.le_zero.mp hs)
    subst this
    simp at hmem
  | succ n ih =>
    intro s hs c0 hmem hbad halnum
    have hbad5 : wsChar c0 = false ∧ c0.isDigit = false ∧ c0.isAlpha = false ∧
        isOperatorChar c0 = false ∧ isDelimiterChar c0 = false := by
      have := hbad
      simp [badChar] at this
      tauto
    match s with
    | [] => simp at hmem
    | c :: cs =>
      have hlen : cs.length ≤ n := by simpa using hs
      have hne : c0 ∈ cs → (tokenize cs).isOk = false := fun hm =>
        ih cs hlen c0 hm hbad halnum
      by_cases hws : wsChar c
      · rcases List.mem_cons.mp hmem with rfl | hm
        · exact absurd hws (by simp [hbad5.1])
        · rw [tokenize_ws cs hws]; exact hne hm
      · by_cases hdig : c.isDigit
        · rcases List.mem_cons.mp hmem with rfl | hm
          · exact absurd hdig (by simp [hbad5.2.1])
          · rw [tokenize_digit cs hdig, except_isOk_map]
            have hm2 : c0 ∈ cs.dropWhile Char.isDigit := by
              have := List.takeWhile_append_dropWhile Char.isDigit cs
              rcases List.mem_append.mp (this ▸ hm) with h1 | h2
              · exact absurd (List.mem_takeWhile_imp h1) (by simp [hbad5.2.1])
              · exact h2
            exact ih _ (le_trans (length_dropWhile_le _ _) hlen) c0 hm2 hbad halnum
        · by_cases hal : c.isAlpha
          · rcases List.mem_cons.mp hmem with rfl | hm
            · exact absurd hal (by simp [hbad5.2.2.1])
            · rw [tokenize_alpha cs hal, except_isOk_map]
              have hm2 : c0 ∈ cs.dropWhile rustIsAlphanumeric := by
                have := List.takeWhile_append_dropWhile rustIsAlphanumeric cs
                rcases List.mem_append.mp (this ▸ hm) with h1 | h2
                · exact absurd (List.mem_takeWhile_imp h1) (by simp [halnum])
                · exact h2
              exact ih _ (le_trans (length_dropWhile_le _ _) hlen) c0 hm2 hbad halnum
          · by_cases hop : isOperatorChar c
            · rcases List.mem_cons.mp hmem with rfl | hm
              · exact absurd hop (by simp [hbad5.2.2.2.1])
              · rw [tokenize_op cs hop, except_isOk_map]; exact hne hm
            · by_cases hde : isDelimiterChar c
              · rcases List.mem_cons.mp hmem with rfl | hm
                · exact absurd hde (by simp [hbad5.2.2.2.2])
                · rw [tokenize_delim cs hde, except_isOk_map]; exact hne hm
              · rw [tokenize_err cs (by simpa using hws) (by simpa using hdig)
                  (by simpa using hal) (by simpa using hop) (by simpa using hde)]
                rfl

theorem not_digit_of_ws {c : Char} (h : wsChar c = true) : c.isDigit = false := by
  simp only [wsChar, Bool.or_eq_true, beq_iff_eq] at h
  rcases h with (rfl | rfl) | rfl <;> decide

theorem not_alnum_of_ws {c : Char} (h : wsChar c = true) : rustIsAlphanumeric c = false := by
  simp only [wsChar, Bool.or_eq_true, beq_iff_eq] at h
  rcases h with (rfl | rfl) | rfl <;> decide

theorem not_digit_of_op {c : Char} (h : isOperatorChar c = true) : c.isDigit = false := by
  rcases op_chars h with rfl | rfl | rfl | rfl <;> decide

theorem not_alnum_of_op {c : Char} (h : isOperatorChar c = true) :
    rustIsAlphanumeric c = false := by
  rcases op_chars h with rfl | rfl | rfl | rfl <;> decide

theorem not_digit_of_delim {c : Char} (h : isDelimiterChar c = true) : c.isDigit = false := by
  rcases delim_chars h with rfl | rfl | rfl | rfl | rfl | rfl <;> decide

theorem not_alnum_of_delim {c : Char} (h : isDelimiterChar c = true) :
    rustIsAlphanumeric c = false := by
  rcases delim_chars h with rfl | rfl | rfl | rfl | rfl | rfl <;> decide

theorem lexable_dropWhile_digit {t : List Char} (h : Lexable t) :
    Lexable (t.dropWhile Char.isDigit) := by
  induction h with
  | nil => exact .nil
  | ws hws h2 _ =>
    rw [List.dropWhile_cons_of_neg (by simp [not_digit_of_ws hws])]
    exact .ws hws h2
  | num hc hrun h2 ih =>
    rw [List.dropWhile_cons_of_pos hc, List.dropWhile_append_of_pos hrun]
    exact ih
  | alpha hc hrun h2 _ =>
    rw [List.dropWhile_cons_of_neg (by simp [not_digit_of_alpha hc])]
    exact .alpha hc hrun h2
  | op hc h2 _ =>
    rw [List.dropWhile_cons_of_neg (by simp [not_digit_of_op hc])]
    exact .op hc h2
  | delim hc h2 _ =>
    rw [List.dropWhile_cons_of_neg (by simp [not_digit_of_delim hc])]
    exact .delim hc h2

theorem lexable_dropWhile_alnum {t : List Char} (h : Lexable t) :
    Lexable (t.dropWhile rustIsAlphanumeric) := by
  induction h with
  | nil => exact .nil
  | ws hws h2 _ =>
    rw [List.dropWhile_cons_of_neg (by simp [not_alnum_of_ws hws])]
    exact .ws hws h2
  | num hc hrun h2 ih =>
    rw [List.dropWhile_cons_of_pos (alnum_of_digit hc),
      List.dropWhile_append_of_pos (fun d hd => alnum_of_digit (hrun d hd))]
    exact ih
  | alpha hc hrun h2 ih =>
    rw [List.dropWhile_cons_of_pos (alnum_of_alpha hc), List.dropWhile_append_of_pos hrun]
    exact ih
  | op hc h2 _ =>
    rw [List.dropWhile_cons_of_neg (by simp [not_alnum_of_op hc])]
    exact .op hc h2
  | delim hc h2 _ =>
    rw [List.dropWhile_cons_of_neg (by simp [not_alnum_of_delim hc])]
    exact .delim hc h2

theorem tokenize_ok_of_lexable :
    ∀ n : Nat, ∀ s : List Char, s.length ≤ n → Lexable s → (tokenize s).isOk = true := by
  intro n
  induction n with
  | zero =>
    intro s hs _
    have : s = [] := List.length_eq_zero.mp (Nat.le_zero.mp hs)
    subst this
    rfl
  | succ n ih =>
    intro s hs hlex
    cases hlex with
    | nil => rfl
    | ws hws h2 =>
      rw [tokenize_ws _ hws]
      exact ih _ (by simpa using hs) h2
    | num hc hrun h2 =>
      rename_i c run rest
      rw [tokenize_digit _ hc, except_isOk_map, List.dropWhile_append_of_pos hrun]
      refine ih _ ?_ (lexable_dropWhile_digit h2)
      have h3 := length_dropWhile_le Char.isDigit rest
      simp only [List.length_cons, List.length_append] at hs ⊢
      omega
    | alpha hc hrun h2 =>
      rename_i c run rest
      rw [tokenize_alpha _ hc, except_isOk_map, List.dropWhile_append_of_pos hrun]
      refine ih _ ?_ (lexable_dropWhile_alnum h2)
      have h3 := length_dropWhile_le rustIsAlphanumeric rest
      simp only [List.length_cons, List.length_append] at hs ⊢
      omega
    | op hc h2 =>
      rw [tokenize_op _ hc, except_isOk_map]
      exact ih _ (by simpa using hs) h2
    | delim hc h2 =>
      rw [tokenize_delim _ hc, except_isOk_map]
      exact ih _ (by simpa using hs) h2

theorem lexable_of_tokenize_ok :
    ∀ n : Nat, ∀ s : List Char, s.length ≤ n → (tokenize s).isOk = true → Lexable s := by
  intro n
  induction n with
  | zero =>
    intro s hs _
    have : s = [] := List.length_eq_zero.mp (Nat.le_zero.mp hs)
    subst this
    exact .nil
  | succ n ih =>
    intro s hs h
    match s with
    | [] => exact .nil
    | c :: cs =>
      have hlen : cs.length ≤ n := by simpa using hs
      by_cases hws : wsChar c
      · rw [tokenize_ws cs hws] at h
        exact .ws hws (ih cs hlen h)
      · by_cases hdig : c.isDigit
        · rw [tokenize_digit cs hdig, except_isOk_map] at h
          have h2 := ih _ (le_trans (length_dropWhile_le _ _) hlen) h
          have hrun : ∀ d ∈ cs.takeWhile Char.isDigit, d.isDigit = true :=
            fun d hd => List.mem_takeWhile_imp hd
          have := Lexable.num hdig hrun h2
          rwa [List.takeWhile_append_dropWhile] at this
        · by_cases hal : c.isAlpha
          · rw [tokenize_alpha cs hal, except_isOk_map] at h
            have h2 := ih _ (le_trans (length_dropWhile_le _ _) hlen) h
            have hrun : ∀ d ∈ cs.takeWhile rustIsAlphanumeric, rustIsAlphanumeric d = true :=
              fun d hd => List.mem_takeWhile_imp hd
            have := Lexable.alpha hal hrun h2
            rwa [List.takeWhile_append_dropWhile] at this
          · by_cases hop : isOperatorChar c
            · rw [tokenize_op cs hop, except_isOk_map] at h
              exact .op hop (ih cs hlen h)
            · by_cases hde : isDelimiterChar c
              · rw [tokenize_delim cs hde, except_isOk_map] at h
                exact .delim hde (ih cs hlen h)
              · rw [tokenize_err cs (by simpa using hws) (by simpa using hdig)
                  (by simpa using hal) (by simpa using hop) (by simpa using hde)] at h
                simp [Except.isOk, Except.toBool] at h

theorem tokenize_isOk_iff_lexable (s : List Char) :
    (tokenize s).isOk = true ↔ Lexable s :=
  ⟨lexable_of_tokenize_ok s.length s le_rfl, tokenize_ok_of_lexable s.length s le_rfl⟩

theorem cursorOk_trans {a b c : ParserState} (h1 : cursorOk a b) (h2 : cursorOk b c) :
    cursorOk a c := by
  obtain ⟨e1, l1, u1⟩ := h1
  obtain ⟨e2, l2, u2⟩ := h2
  exact ⟨e2.trans e1, l1.trans l2, by rw [e1] at u2; exact u2⟩

theorem current_token_ok {st : ParserState} {t : Token}
    (h : current_token st = .ok t) :
    st.tokens.get? st.position = some t ∧ st.position < st.tokens.length := by
  unfold current_token at h
  cases hg : st.tokens.get? st.position with
  | none => rw [hg] at h; simp at h
  | some t0 =>
    rw [hg] at h
    simp at h
    subst h
    exact ⟨rfl, (List.get?_eq_some.mp hg).1⟩

theorem consume_token_ok {st : ParserState} {t : Token} {st2 : ParserState}
    (h : consume_token st = .ok (t, st2)) :
    st2.tokens = st.tokens ∧ st2.position = st.position + 1 ∧
    st.position < st.tokens.length := by
  unfold consume_token at h
  cases hc : current_token st with
  | error e => rw [hc] at h; simp [Except.map] at h
  | ok t0 =>
    rw [hc] at h
    simp [Except.map] at h
    obtain ⟨rfl, rfl⟩ := h
    exact ⟨rfl, rfl, (current_token_ok hc).2⟩

theorem consume_cursorOk {st : ParserState} {t : Token} {st2 : ParserState}
    (h : consume_token st = .ok (t, st2)) : cursorOk st st2 := by
  obtain ⟨he, hp, hlt⟩ := consume_token_ok h
  exact ⟨he, by omega, by omega⟩

theorem cursorOk_refl (st : ParserState) : cursorOk st st ∨ True := Or.inr trivial

theorem presult_map_ok {α β : Type} (f : α → β) (p : PResult α) (b : β)
    (st2 : ParserState) (h : PResult.map f p = .ok b st2) :
    ∃ a, p = .ok a st2 ∧ b = f a := by
  cases p with
  | ok a st => simp [PResult.map] at h; exact ⟨a, by rw [h.2], h.1.symm⟩
  | fatal e => simp [PResult.map] at h
  | diverge => simp [PResult.map] at h

/-- Cursor discipline of every parser rule (mutual induction over fuel):
whenever a rule returns ok, the token sequence is unchanged and the cursor
moved monotonically without ever exceeding the token sequence length. -/
theorem parser_cursor_mono : ∀ n : Nat,
    (∀ st r st2, parse_statement n st = .ok r st2 → cursorOk st st2) ∧
    (∀ st r st2, parse_function_declaration n st = .ok r st2 → cursorOk st st2) ∧
    (∀ st r st2, parse_parameter_list n st = .ok r st2 → cursorOk st st2) ∧
    (∀ st r st2, parse_statement_list n st = .ok r st2 → cursorOk st st2) ∧
    (∀ st r st2, parse_if_statement n st = .ok r st2 → cursorOk st st2) ∧
    (∀ st r st2, parse_assignment n st = .ok r st2 → cursorOk st st2) ∧
    (∀ st r st2, parse_expression n st = .ok r st2 → cursorOk st st2) ∧
    (∀ st r st2, parse_term n st = .ok r st2 → cursorOk st st2) ∧
    (∀ st r st2, parse_loop n st = .ok r st2 → cursorOk st st2) := by
  intro n
  induction n with
  | zero =>
    refine ⟨?_, ?_, ?_, ?_, ?_, ?_, ?_, ?_, ?_⟩ <;> intro st r st2 h <;>
      simp [parse_statement, parse_function_declaration, parse_parameter_list,
        parse_statement_list, parse_if_statement, parse_assignment, parse_expression,
        parse_term, parse_loop] at h
  | succ n ih =>
    obtain ⟨ihst, ihfd, ihpl, ihsl, ihif, iha, ihe, ihterm, ihloop⟩ := ih
    refine ⟨?_, ?_, ?_, ?_, ?_, ?_, ?_, ?_, ?_⟩
    · intro st r st2 h
      simp only [parse_statement] at h
      split at h
      · simp at h
      · split at h
        · exact ihfd _ _ _ h
        · split at h
          · exact ihif _ _ _ h
          · split at h
            · exact iha _ _ _ h
            · simp at h
    · intro st r st2 h
      simp only [parse_function_declaration] at h
      split at h
      · simp at h
      · rename_i t0 st1 heq1
        split at h
        · simp at h
        · rename_i nameTok st2a heq2
          split at h
          · simp at h
          · rename_i t2 st3 heq3
            split at h
            · simp at h
            · simp at h
            · rename_i params st4 heq4
              split at h
              · simp at h
              · rename_i t4 st5 heq5
                split at h
                · simp at h
                · rename_i t5 st6 heq6
                  split at h
                  · simp at h
                  · simp at h
                  · rename_i body st7 heq7
                    split at h
                    · simp at h
                    · rename_i t7 st8 heq8
                      injection h with h1 h2
                      subst h2
                      exact cursorOk_trans (consume_cursorOk heq1)
                        (cursorOk_trans (consume_cursorOk heq2)
                          (cursorOk_trans (consume_cursorOk heq3)
                            (cursorOk_trans (ihpl _ _ _ heq4)
                              (cursorOk_trans (consume_cursorOk heq5)
                                (cursorOk_trans (consume_cursorOk heq6)
                                  (cursorOk_trans (ihsl _ _ _ heq7)
                                    (consume_cursorOk heq8)))))))
    · intro st r st2 h
      simp only [parse_parameter_list] at h
      split at h
      · simp at h
      · rename_i t heq
        split at h
        · injection h with h1 h2
          subst h2
          exact ⟨rfl, le_rfl, Nat.le_of_lt (current_token_ok heq).2⟩
        · split at h
          · split at h
            · simp at h
            · rename_i idTok st1 heq1
              split at h
              · simp at h
              · rename_i t2 heq2
                split at h
                · split at h
                  · simp at h
                  · rename_i t3 st1b heq3
                    obtain ⟨a, ha, rfl⟩ := presult_map_ok _ _ _ _ h
                    exact cursorOk_trans (consume_cursorOk heq1)
                      (cursorOk_trans (consume_cursorOk heq3) (ihpl _ _ _ ha))
                · obtain ⟨a, ha, rfl⟩ := presult_map_ok _ _ _ _ h
                  exact cursorOk_trans (consume_cursorOk heq1) (ihpl _ _ _ ha)
          · split at h
            · split at h
              · simp at h
              · rename_i t3 st1 heq3
                exact cursorOk_trans (consume_cursorOk heq3) (ihpl _ _ _ h)
            · exact ihpl _ _ _ h
    · intro st r st2 h
      simp only [parse_statement_list] at h
      split at h
      · simp at h
      · rename_i t heq
        split at h
        · injection h with h1 h2
          subst h2
          exact ⟨rfl, le_rfl, Nat.le_of_lt (current_token_ok heq).2⟩
        · split at h
          · simp at h
          · simp at h
          · rename_i s1 st1 heq1
            obtain ⟨a, ha, rfl⟩ := presult_map_ok _ _ _ _ h
            exact cursorOk_trans (ihst _ _ _ heq1) (ihsl _ _ _ ha)
    · intro st r st2 h
      simp only [parse_if_statement] at h
      split at h
      · simp at h
      · rename_i t0 st1 heq1
        split at h
        · simp at h
        · rename_i t1 st2a heq2
          split at h
          · simp at h
          · simp at h
          · rename_i cond st3 heq3
            split at h
            · simp at h
            · rename_i t3 st4 heq4
              split at h
              · simp at h
              · rename_i t4 st5 heq5
                split at h
                · simp at h
                · simp at h
                · rename_i body st6 heq6
                  split at h
                  · simp at h
                  · rename_i t6 st7 heq7
                    injection h with h1 h2
                    subst h2
                    exact cursorOk_trans (consume_cursorOk heq1)
                      (cursorOk_trans (consume_cursorOk heq2)
                        (cursorOk_trans (ihe _ _ _ heq3)
                          (cursorOk_trans (consume_cursorOk heq4)
                            (cursorOk_trans (consume_cursorOk heq5)
                              (cursorOk_trans (ihsl _ _ _ heq6)
                                (consume_cursorOk heq7))))))
    · intro st r st2 h
      simp only [parse_assignment] at h
      split at h
      · simp at h
      · rename_i varTok st1 heq1
        split at h
        · simp at h
        · rename_i x st1b heq2
          split at h
          · simp at h
          · simp at h
          · rename_i value st3 heq3
            split at h
            · simp at h
            · rename_i t4 st4 heq4
              injection h with h1 h2
              subst h2
              exact cursorOk_trans (consume_cursorOk heq1)
                (cursorOk_trans (consume_cursorOk heq2)
                  (cursorOk_trans (ihe _ _ _ heq3) (consume_cursorOk heq4)))
    · intro st r st2 h
      simp only [parse_expression] at h
      split at h
      · simp at h
      · simp at h
      · rename_i left st1 heq1
        split at h
        · simp at h
        · rename_i t heq2
          split at h
          · split at h
            · simp at h
            · rename_i opTok st2b heq3
              split at h
              · simp at h
              · simp at h
              · rename_i right st3 heq4
                injection h with h1 h2
                subst h2
                exact cursorOk_trans (ihterm _ _ _ heq1)
                  (cursorOk_trans (consume_cursorOk heq3) (ihe _ _ _ heq4))
          · injection h with h1 h2
            subst h2
            exact ihterm _ _ _ heq1
    · intro st r st2 h
      simp only [parse_term] at h
      split at h
      · simp at h
      · rename_i t heq
        split at h
        · split at h
          · simp at h
          · rename_i numTok st1 heq1
            split at h
            · rename_i v heqI
              injection h with h1 h2
              subst h2
              exact consume_cursorOk heq1
            · simp at h
        · split at h
          · split at h
            · simp at h
            · rename_i idTok st1 heq1
              injection h with h1 h2
              subst h2
              exact consume_cursorOk heq1
          · split at h
            · split at h
              · simp at h
              · rename_i t1 st1 heq1
                split at h
                · simp at h
                · simp at h
                · rename_i e1 st2b heq2
                  split at h
                  · simp at h
                  · rename_i t3 st3 heq3
                    injection h with h1 h2
                    subst h2
                    exact cursorOk_trans (consume_cursorOk heq1)
                      (cursorOk_trans (ihe _ _ _ heq2) (consume_cursorOk heq3))
            · simp at h
    · intro st r st2 h
      simp only [parse_loop] at h
      split at h
      · simp at h
      · rename_i t heq
        split at h
        · injection h with h1 h2
          subst h2
          exact ⟨rfl, le_rfl, Nat.le_of_lt (current_token_ok heq).2⟩
        · split at h
          · simp at h
          · simp at h
          · rename_i s1 st1 heq1
            obtain ⟨a, ha, rfl⟩ := presult_map_ok _ _ _ _ h
            exact cursorOk_trans (ihst _ _ _ heq1) (ihloop _ _ _ ha)

theorem parse_term_atom {t : Token} {e : Expr} (ha : AtomTerm t e) (n : Nat)
    (st : ParserState) (hc : current_token st = .ok t) :
    parse_term (n + 1) st = .ok e ⟨st.tokens, st.position + 1⟩ := by
  have hcons : consume_token st = .ok (t, ⟨st.tokens, st.position + 1⟩) := by
    unfold consume_token
    rw [hc]
    rfl
  rcases ha with ⟨hty, hex⟩ | ⟨hty, v, hv, hex⟩
  · subst hex
    simp only [parse_term, hc, hcons, hty]
    rfl
  · subst hex
    simp only [parse_term, hc, hcons, hty, hv]
    rfl

theorem parse_expression_step_op {t o : Token} {e : Expr} (ha : AtomTerm t e)
    (ho : o.token_type = .Operator) (n : Nat) (st : ParserState)
    (hc : current_token st = .ok t)
    (hc2 : current_token ⟨st.tokens, st.position + 1⟩ = .ok o) :
    parse_expression (n + 2) st =
      PResult.map (fun right => Expr.Binary e o.value right)
        (parse_expression (n + 1) ⟨st.tokens, st.position + 2⟩) := by
  have hterm := parse_term_atom ha n st hc
  have hcons1 : consume_token ⟨st.tokens, st.position + 1⟩ =
      .ok (o, ⟨st.tokens, st.position + 1 + 1⟩) := by
    unfold consume_token
    rw [hc2]
    rfl
  show parse_expression (n + 1 + 1) st = _
  generalize hm : n + 1 = m at hterm ⊢
  simp only [parse_expression, hterm, hc2, ho, if_pos, hcons1]
  have h2 : st.position + 1 + 1 = st.position + 2 := by omega
  rw [h2]
  cases parse_expression m ⟨st.tokens, st.position + 2⟩ <;> rfl

theorem parse_expression_step_end {t r : Token} {e : Expr} (ha : AtomTerm t e)
    (hr : r.token_type ≠ .Operator) (n : Nat) (st : ParserState)
    (hc : current_token st = .ok t)
    (hc2 : current_token ⟨st.tokens, st.position + 1⟩ = .ok r) :
    parse_expression (n + 2) st = .ok e ⟨st.tokens, st.position + 1⟩ := by
  have hterm := parse_term_atom ha n st hc
  show parse_expression (n + 1 + 1) st = _
  simp only [parse_expression, hterm, hc2]
  rw [if_neg hr]

theorem parse_expression_right_assoc {t1 o1 t2 o2 t3 r : Token} {e1 e2 e3 : Expr}
    (h1 : AtomTerm t1 e1) (h2 : AtomTerm t2 e2) (h3 : AtomTerm t3 e3)
    (ho1 : o1.token_type = .Operator) (ho2 : o2.token_type = .Operator)
    (hr : r.token_type ≠ .Operator) (rest : List Token) (n : Nat) :
    parse_expression (n + 5) ⟨t1 :: o1 :: t2 :: o2 :: t3 :: r :: rest, 0⟩ =
      .ok (.Binary e1 o1.value (.Binary e2 o2.value e3))
        ⟨t1 :: o1 :: t2 :: o2 :: t3 :: r :: rest, 5⟩ := by
  have s1 := parse_expression_step_op h1 ho1 (n + 3)
    ⟨t1 :: o1 :: t2 :: o2 :: t3 :: r :: rest, 0⟩ rfl rfl
  have s2 := parse_expression_step_op h2 ho2 (n + 2)
    ⟨t1 :: o1 :: t2 :: o2 :: t3 :: r :: rest, 2⟩ rfl rfl
  have s3 := parse_expression_step_end h3 hr (n + 1)
    ⟨t1 :: o1 :: t2 :: o2 :: t3 :: r :: rest, 4⟩ rfl rfl
  norm_num at s1 s2 s3
  rw [s1, s2, s3]
  rfl

/-- If the current token inside a parameter list is neither the delimiter
`)`, nor an Identifier, nor the delimiter `,`, no branch of the loop body
advances the cursor and the loop never exits: the rule diverges at every
fuel. -/
theorem parse_parameter_list_stuck (st : ParserState) (t : Token)
    (hc : current_token st = .ok t)
    (h1 : ¬(t.token_type = .Delimiter ∧ t.value = ")"))
    (h2 : ¬t.token_type = .Identifier)
    (h3 : ¬(t.token_type = .Delimiter ∧ t.value = ",")) :
    ∀ fuel, parse_parameter_list fuel st = .diverge := by
  intro fuel
  induction fuel with
  | zero => simp [parse_parameter_list]
  | succ n ih =>
    simp only [parse_parameter_list, hc]
    rw [if_neg h1, if_neg h2, if_neg h3]
    exact ih

theorem parse_badTokens_diverges : ∀ fuel, parse fuel badTokens = .diverge := by
  have hstuck := parse_parameter_list_stuck ⟨badTokens, 3⟩ ⟨.Number, "5"⟩
    rfl (by simp) (by simp) (by simp)
  intro fuel
  match fuel with
  | 0 => rfl
  | 1 => rfl
  | 2 => rfl
  | k + 3 =>
    have c0 : current_token ⟨badTokens, 0⟩ = .ok ⟨.Keyword, "function"⟩ := rfl
    have k0 : consume_token ⟨badTokens, 0⟩ =
      .ok (⟨.Keyword, "function"⟩, ⟨badTokens, 1⟩) := rfl
    have k1 : consume_token ⟨badTokens, 1⟩ =
      .ok (⟨.Identifier, "f"⟩, ⟨badTokens, 2⟩) := rfl
    have k2 : consume_token ⟨badTokens, 2⟩ =
      .ok (⟨.Delimiter, "("⟩, ⟨badTokens, 3⟩) := rfl
    show parse_loop (k + 3) ⟨badTokens, 0⟩ = .diverge
    simp only [parse_loop, parse_statement, parse_function_declaration, c0, k0, k1, k2,
      hstuck k]
    simp

theorem parse_term_number {n : Nat} {st : ParserState} {t : Token}
    (hc : current_token st = .ok t) (hty : t.token_type = .Number) :
    (∀ v : Int, parseI32 t.value = some v →
        parse_term (n + 1) st = .ok (.NumberLiteral v) ⟨st.tokens, st.position + 1⟩) ∧
    (parseI32 t.value = none →
        parse_term (n + 1) st = .fatal "called Result::unwrap() on an Err value") := by
  have hcons : consume_token st = .ok (t, ⟨st.tokens, st.position + 1⟩) := by
    unfold consume_token
    rw [hc]
    rfl
  constructor
  · intro v hv
    simp [parse_term, hc, hcons, hty, hv]
  · intro hv
    simp [parse_term, hc, hcons, hty, hv]

theorem goodToken_ne_eof {t : Token} (h : GoodToken t) : t.token_type ≠ .EOF := by
  rcases h with ⟨ht, _⟩ | ⟨ht, _⟩ | ⟨ht, _⟩ | ⟨ht, _⟩
  · rw [ht]; simp
  · rcases ht with ht | ht <;> rw [ht] <;> simp
  · rw [ht]; simp
  · rw [ht]; simp

theorem goodToken_keyword {t : Token} (h : GoodToken t) (hk : t.token_type = .Keyword) :
    t.value = "function" ∨ t.value = "if" := by
  rcases h with ⟨ht, _⟩ | ⟨_, _, _, _, _, _, hiff⟩ | ⟨ht, _⟩ | ⟨ht, _⟩
  · rw [hk] at ht; simp at ht
  · exact hiff.mp hk
  · rw [hk] at ht; simp at ht
  · rw [hk] at ht; simp at ht

theorem goodToken_value_ne_eq {t : Token} (h : GoodToken t) : t.value ≠ "=" := by
  intro hv
  rcases h with ⟨_, c, cs, hdata, hrun⟩ | ⟨_, c, cs, hdata, hc, _, _⟩ |
    ⟨_, c, hc, hval⟩ | ⟨_, c, hc, hval⟩
  · rw [hv] at hdata
    have h2 : ('=' : Char) :: ([] : List Char) = c :: cs := hdata
    injection h2 with h3 h4
    subst h3
    exact absurd (hrun '=' (by simp)) (by decide)
  · rw [hv] at hdata
    have h2 : ('=' : Char) :: ([] : List Char) = c :: cs := hdata
    injection h2 with h3 h4
    subst h3
    exact absurd hc (by decide)
  · rw [hval] at hv
    have : c = '=' := by
      have := congrArg String.data hv
      simpa using this
    subst this
    exact absurd hc (by decide)
  · rw [hval] at hv
    have : c = '=' := by
      have := congrArg String.data hv
      simpa using this
    subst this
    exact absurd hc (by decide)

theorem goodToken_number_head {t : Token} (h : GoodToken t) (hn : t.token_type = .Number) :
    ∃ c cs, t.value.data = c :: cs ∧ c.isDigit = true := by
  rcases h with ⟨_, c, cs, hdata, hrun⟩ | ⟨ht, _⟩ | ⟨ht, _⟩ | ⟨ht, _⟩
  · exact ⟨c, cs, hdata, hrun c (by simp)⟩
  · rcases ht with ht | ht <;> rw [hn] at ht <;> simp at ht
  · rw [hn] at ht; simp at ht
  · rw [hn] at ht; simp at ht

theorem goodToken_identifier_head {t : Token} (h : GoodToken t)
    (hn : t.token_type = .Identifier) :
    ∃ c cs, t.value.data = c :: cs ∧ c.isAlpha = true := by
  rcases h with ⟨ht, _⟩ | ⟨_, c, cs, hdata, hc, _, _⟩ | ⟨ht, _⟩ | ⟨ht, _⟩
  · rw [hn] at ht; simp at ht
  · exact ⟨c, cs, hdata, hc⟩
  · rw [hn] at ht; simp at ht
  · rw [hn] at ht; simp at ht

set_option maxRecDepth 8000 in
/-- Evaluation of the lexer on the example program of src/main.rs: it stops
at the first `=` character. -/
theorem tokenize_exampleSource :
    tokenize exampleSource.data = .error "Unexpected character: =" := by
  rfl

/-- Claim C1, counterexample: on the end-to-end example program of
src/main.rs, the tokenizer itself halts fatally (its result is not ok), so
the run never reaches the parser — contradicting the claim that the parse
yields a FunctionDeclaration and fails only later at the assignment rule's
`=`-consumption step inside `applyBrakes();`. -/
theorem claim_C1_counterexample : (tokenize exampleSource.data).isOk = false := by
  rw [tokenize_exampleSource]
  rfl

/-- Claim C1, amended: running the front end on the example program halts
fatally during tokenization, at the first `=` character of `speed = 100;`
(no lexer rule classifies `=`), with the panic message referencing `=`;
parse() is never reached and no FunctionDeclaration is produced. -/
theorem claim_C1_amended :
    tokenize exampleSource.data = .error "Unexpected character: =" ∧
    ∀ ts : List Token, tokenize exampleSource.data ≠ .ok ts := by
  refine ⟨tokenize_exampleSource, ?_⟩
  intro ts h
  rw [tokenize_exampleSource] at h
  exact absurd h (by simp)

/-- Claim C2, counterexample: the parser's assignment rule consumes the
`=`-position token unconditionally, so parse over a tokenized source with
no `=` at all can still run past that step and return an Assignment:
tokenizing `x y z ;` succeeds and parsing it yields
`Assignment("x", Variable("z"))`. -/
theorem claim_C2_counterexample :
    tokenize srcXYZ.data = .ok xyzTokens ∧
    parse 9 xyzTokens = .ok [.Assignment "x" (.Variable "z")] ⟨xyzTokens, 4⟩ := by
  exact ⟨rfl, rfl⟩

/-- Claim C2, amended: for every source string containing `=`, tokenize
halts fatally (no classification rule matches `=`), and no token of any
successful tokenization ever has text `=`. (The claim's further
consequences are false: the assignment rule consumes the `=` position
unconditionally, see the counterexample.) -/
theorem claim_C2_amended :
    (∀ s : List Char, '=' ∈ s → (tokenize s).isOk = false) ∧
    (∀ (s : List Char) (ts : List Token), tokenize s = .ok ts →
      ∀ t ∈ ts, t.value ≠ "=") := by
  constructor
  · intro s hmem
    exact tokenize_badchar s.length s le_rfl '=' hmem (by decide) (by decide)
  · intro s ts h t ht
    obtain ⟨body, rfl, hbody⟩ := tokenize_ok_structure s.length s le_rfl ts h
    rcases List.mem_append.mp ht with hb | he
    · exact goodToken_value_ne_eq (hbody t hb)
    · simp at he
      rw [he]
      simp

theorem claim_C2_witness :
    (tokenize ("=".data)).isOk = false ∧
    ((⟨TokenType.Identifier, "x"⟩ : Token).value ≠ "=") :=
  ⟨claim_C2_amended.1 ("=".data) (by simp),
   claim_C2_amended.2 ("x".data) [⟨.Identifier, "x"⟩, ⟨.EOF, ""⟩] rfl
     ⟨.Identifier, "x"⟩ (by simp)⟩

/-- Claim C3: expression parsing is right-associative with a single
precedence level — on tokens `term op term op term` (followed by a
non-operator token, as the lexer's EOF terminator guarantees in context),
`parse_expression` returns `Binary(a, op1, Binary(b, op2, c))`, which is
never the left-associative grouping. -/
theorem claim_C3 (t1 o1 t2 o2 t3 r : Token) (e1 e2 e3 : Expr) (rest : List Token)
    (n : Nat) (h1 : AtomTerm t1 e1) (h2 : AtomTerm t2 e2) (h3 : AtomTerm t3 e3)
    (ho1 : o1.token_type = .Operator) (ho2 : o2.token_type = .Operator)
    (hr : r.token_type ≠ .Operator) :
    parse_expression (n + 5) ⟨t1 :: o1 :: t2 :: o2 :: t3 :: r :: rest, 0⟩ =
      .ok (.Binary e1 o1.value (.Binary e2 o2.value e3))
        ⟨t1 :: o1 :: t2 :: o2 :: t3 :: r :: rest, 5⟩ ∧
    Expr.Binary e1 o1.value (.Binary e2 o2.value e3) ≠
      .Binary (.Binary e1 o1.value e2) o2.value e3 := by
  refine ⟨parse_expression_right_assoc h1 h2 h3 ho1 ho2 hr rest n, ?_⟩
  intro hEq
  rcases h1 with ⟨_, he⟩ | ⟨_, v, _, he⟩ <;> subst he <;> simp at hEq

theorem claim_C3_witness :
    parse_expression 5
        ⟨[⟨.Identifier, "a"⟩, ⟨.Operator, "+"⟩, ⟨.Identifier, "b"⟩, ⟨.Operator, "+"⟩,
          ⟨.Identifier, "c"⟩, ⟨.EOF, ""⟩], 0⟩ =
      .ok (.Binary (.Variable "a") "+" (.Binary (.Variable "b") "+" (.Variable "c")))
        ⟨[⟨.Identifier, "a"⟩, ⟨.Operator, "+"⟩, ⟨.Identifier, "b"⟩, ⟨.Operator, "+"⟩,
          ⟨.Identifier, "c"⟩, ⟨.EOF, ""⟩], 5⟩ ∧
    Expr.Binary (.Variable "a") "+" (.Binary (.Variable "b") "+" (.Variable "c")) ≠
      .Binary (.Binary (.Variable "a") "+" (.Variable "b")) "+" (.Variable "c") :=
  claim_C3 ⟨.Identifier, "a"⟩ ⟨.Operator, "+"⟩ ⟨.Identifier, "b"⟩ ⟨.Operator, "+"⟩
    ⟨.Identifier, "c"⟩ ⟨.EOF, ""⟩ (.Variable "a") (.Variable "b") (.Variable "c") [] 0
    (Or.inl ⟨rfl, rfl⟩) (Or.inl ⟨rfl, rfl⟩) (Or.inl ⟨rfl, rfl⟩) rfl rfl (by decide)

/-- Claim C4: there is a token sequence on which parsing does not
terminate — on `tokenize "function f(5){}"`, the Number token `5` inside
the parameter parentheses is neither an Identifier, nor `,`, nor `)`, so
`parse_parameter_list` (and hence `parse`) diverges at every fuel. -/
theorem claim_C4 :
    tokenize srcFn5.data = .ok badTokens ∧
    (∀ fuel, parse_parameter_list fuel ⟨badTokens, 3⟩ = .diverge) ∧
    (∀ fuel, parse fuel badTokens = .diverge) := by
  refine ⟨rfl, ?_, parse_badTokens_diverges⟩
  exact parse_parameter_list_stuck ⟨badTokens, 3⟩ ⟨.Number, "5"⟩
    rfl (by simp) (by simp) (by simp)

/-- Claim C5: whenever tokenize succeeds, the token sequence is non-empty
and ends with exactly one EOF token with empty text; no EOF token occurs
anywhere else. -/
theorem claim_C5 (s : List Char) (ts : List Token) (h : tokenize s = .ok ts) :
    ts ≠ [] ∧ ∃ body, ts = body ++ [⟨.EOF, ""⟩] ∧ ∀ t ∈ body, t.token_type ≠ .EOF := by
  obtain ⟨body, rfl, hbody⟩ := tokenize_ok_structure s.length s le_rfl ts h
  refine ⟨by simp, body, rfl, fun t ht => goodToken_ne_eof (hbody t ht)⟩

theorem claim_C5_witness :
    ([⟨TokenType.Identifier, "a"⟩, ⟨TokenType.EOF, ""⟩] : List Token) ≠ [] ∧
    ∃ body, ([⟨TokenType.Identifier, "a"⟩, ⟨TokenType.EOF, ""⟩] : List Token) =
      body ++ [⟨.EOF, ""⟩] ∧ ∀ t ∈ body, t.token_type ≠ .EOF :=
  claim_C5 ("a".data) [⟨.Identifier, "a"⟩, ⟨.EOF, ""⟩] rfl

/-- Claim C6: the parser's cursor discipline — `consume_token` increments
the cursor by exactly one (and `current_token` returns a token without
touching the state at all), and every rule that completes without a fatal
error leaves the cursor no smaller than it started and never beyond the
token sequence length. The statement-list rule is modelled from the spec
(its body is absent from src/parser.rs). -/
theorem claim_C6 :
    (∀ (st : ParserState) (t : Token) (st2 : ParserState),
      consume_token st = .ok (t, st2) →
      st2.tokens = st.tokens ∧ st2.position = st.position + 1) ∧
    (∀ (n : Nat) (st : ParserState) (r : List Stmt) (st2 : ParserState),
      parse_loop n st = .ok r st2 → cursorOk st st2) ∧
    (∀ (n : Nat) (st : ParserState) (r : Stmt) (st2 : ParserState),
      parse_statement n st = .ok r st2 → cursorOk st st2) ∧
    (∀ (n : Nat) (st : ParserState) (r : Expr) (st2 : ParserState),
      parse_expression n st = .ok r st2 → cursorOk st st2) := by
  refine ⟨?_, ?_, ?_, ?_⟩
  · intro st t st2 h
    obtain ⟨he, hp, _⟩ := consume_token_ok h
    exact ⟨he, hp⟩
  · intro n st r st2 h
    exact (parser_cursor_mono n).2.2.2.2.2.2.2.2 st r st2 h
  · intro n st r st2 h
    exact (parser_cursor_mono n).1 st r st2 h
  · intro n st r st2 h
    exact (parser_cursor_mono n).2.2.2.2.2.2.1 st r st2 h

theorem claim_C6_witness :
    ((⟨[(⟨TokenType.EOF, ""⟩ : Token)], 1⟩ : ParserState).tokens =
        (⟨[(⟨TokenType.EOF, ""⟩ : Token)], 0⟩ : ParserState).tokens ∧
      (⟨[(⟨TokenType.EOF, ""⟩ : Token)], 1⟩ : ParserState).position =
        (⟨[(⟨TokenType.EOF, ""⟩ : Token)], 0⟩ : ParserState).position + 1) ∧
    cursorOk ⟨[⟨TokenType.EOF, ""⟩], 0⟩ ⟨[⟨TokenType.EOF, ""⟩], 0⟩ :=
  ⟨claim_C6.1 ⟨[⟨.EOF, ""⟩], 0⟩ ⟨.EOF, ""⟩ ⟨[⟨.EOF, ""⟩], 1⟩ rfl,
   claim_C6.2.1 1 ⟨[⟨.EOF, ""⟩], 0⟩ [] ⟨[⟨.EOF, ""⟩], 0⟩ rfl⟩

/-- Claim C7: tokenization halts fatally exactly when the scan cursor
reaches a character no classification rule matches — tokenize succeeds if
and only if the input is decomposable into rule-shaped chunks (`Lexable`),
every error names a concrete unclassifiable character it contains, and
`tokenize "a$b"` fails with a message referencing `$`. -/
theorem claim_C7 :
    (∀ s : List Char, (tokenize s).isOk = true ↔ Lexable s) ∧
    (∀ (s : List Char) (m : String), tokenize s = .error m →
      ∃ c, c ∈ s ∧ badChar c = true ∧ m = "Unexpected character: " ++ String.mk [c]) ∧
    tokenize srcDollar.data = .error "Unexpected character: $" := by
  refine ⟨tokenize_isOk_iff_lexable, ?_, rfl⟩
  intro s m h
  exact tokenize_err_form s.length s le_rfl m h

theorem claim_C7_witness :
    ∃ c, c ∈ srcDollar.data ∧ badChar c = true ∧
      "Unexpected character: $" = "Unexpected character: " ++ String.mk [c] :=
  claim_C7.2.1 srcDollar.data "Unexpected character: $" rfl

/-- Claim C8: keyword classification applies only to the complete maximal
alphanumeric run — `"function"` lexes to one Keyword token, `"functionX"`
to one Identifier token, and in general every Keyword token a successful
tokenization emits has text exactly `function` or `if`. -/
theorem claim_C8 :
    tokenize srcFunctionWord.data = .ok [⟨.Keyword, "function"⟩, ⟨.EOF, ""⟩] ∧
    tokenize srcFunctionX.data = .ok [⟨.Identifier, "functionX"⟩, ⟨.EOF, ""⟩] ∧
    (∀ (s : List Char) (ts : List Token), tokenize s = .ok ts →
      ∀ t ∈ ts, t.token_type = .Keyword → t.value = "function" ∨ t.value = "if") := by
  refine ⟨rfl, rfl, ?_⟩
  intro s ts h t ht hk
  obtain ⟨body, rfl, hbody⟩ := tokenize_ok_structure s.length s le_rfl ts h
  rcases List.mem_append.mp ht with hb | he
  · exact goodToken_keyword (hbody t hb) hk
  · simp at he
    rw [he] at hk
    simp at hk

theorem claim_C8_witness :
    (⟨TokenType.Keyword, "if"⟩ : Token).value = "function" ∨
    (⟨TokenType.Keyword, "if"⟩ : Token).value = "if" :=
  claim_C8.2.2 ("if".data) [⟨.Keyword, "if"⟩, ⟨.EOF, ""⟩] rfl ⟨.Keyword, "if"⟩
    (by simp) rfl

/-- Claim C9: when the current token is a Number, `parse_term` parses its
text as a base-10 signed 32-bit integer and returns a `NumberLiteral`;
when that text fails to parse (for example, it overflows the `i32` range),
the parse halts with the `unwrap` panic instead of returning a value. -/
theorem claim_C9 (n : Nat) (st : ParserState) (t : Token)
    (hc : current_token st = .ok t) (hty : t.token_type = .Number) :
    (∀ v : Int, parseI32 t.value = some v →
      parse_term (n + 1) st = .ok (.NumberLiteral v) ⟨st.tokens, st.position + 1⟩) ∧
    (parseI32 t.value = none →
      parse_term (n + 1) st = .fatal "called Result::unwrap() on an Err value") :=
  parse_term_number hc hty

theorem claim_C9_witness :
    parse_term 1 ⟨[⟨TokenType.Number, "100"⟩], 0⟩ =
      .ok (.NumberLiteral 100) ⟨[⟨TokenType.Number, "100"⟩], 1⟩ ∧
    parse_term 1 ⟨[⟨TokenType.Number, "2147483648"⟩], 0⟩ =
      .fatal "called Result::unwrap() on an Err value" :=
  ⟨(claim_C9 0 ⟨[⟨.Number, "100"⟩], 0⟩ ⟨.Number, "100"⟩ rfl rfl).1 100 rfl,
   (claim_C9 0 ⟨[⟨.Number, "2147483648"⟩], 0⟩ ⟨.Number, "2147483648"⟩ rfl rfl).2 rfl⟩

/-- Claim C10: a Number or Identifier token can only begin at an ASCII
digit or letter, while an identifier's maximal run continues over any
(Unicode) alphanumeric character: `"aé"` lexes to the single Identifier
`aé`, `"é"` alone is a fatal error, and in general every Number token of a
successful tokenization starts with an ASCII digit and every Identifier
token with an ASCII letter. -/
theorem claim_C10 :
    tokenize srcAE.data = .ok [⟨.Identifier, "aé"⟩, ⟨.EOF, ""⟩] ∧
    tokenize srcEAcute.data = .error "Unexpected character: é" ∧
    (∀ (s : List Char) (ts : List Token), tokenize s = .ok ts → ∀ t ∈ ts,
      (t.token_type = .Number → ∃ c cs, t.value.data = c :: cs ∧ c.isDigit = true) ∧
      (t.token_type = .Identifier → ∃ c cs, t.value.data = c :: cs ∧ c.isAlpha = true)) := by
  refine ⟨rfl, rfl, ?_⟩
  intro s ts h t ht
  obtain ⟨body, rfl, hbody⟩ := tokenize_ok_structure s.length s le_rfl ts h
  rcases List.mem_append.mp ht with hb | he
  · exact ⟨goodToken_number_head (hbody t hb), goodToken_identifier_head (hbody t hb)⟩
  · simp at he
    rw [he]
    constructor
    · intro hk
      simp at hk
    · intro hk
      simp at hk

theorem claim_C10_witness :
    ((⟨TokenType.Identifier, "a"⟩ : Token).token_type = .Number →
      ∃ c cs, (⟨TokenType.Identifier, "a"⟩ : Token).value.data = c :: cs ∧
        c.isDigit = true) ∧
    ((⟨TokenType.Identifier, "a"⟩ : Token).token_type = .Identifier →
      ∃ c cs, (⟨TokenType.Identifier, "a"⟩ : Token).value.data = c :: cs ∧
        c.isAlpha = true) :=
  claim_C10.2.2 ("a".data) [⟨.Identifier, "a"⟩, ⟨.EOF, ""⟩] rfl ⟨.Identifier, "a"⟩
    (by simp)

end VaC
